import Mathlib

/-!
A verification development for the bfcomp repository (src/src/lib.rs,
src/src/main.rs): an eight-symbol tape-language implementation with a
tree-walking interpreter and an x86-64 JIT compiler.

The definitions below are a shallow embedding of the Rust source.  Machine
integers are modelled as `Nat` with explicit `% 2^w` where wrapping matters;
Rust panics (assert failures, out-of-bounds indexing, `expect`/`unwrap`)
are modelled as `Except` errors; `HashMap` is modelled as an association
list whose `insert` replaces an existing key.
-/

set_option maxRecDepth 20000

namespace BF

/-- Embeds `enum Instruction` (lib.rs lines 8-17).  `Add`/`Sub` carry a
`u8` count (value < 256 by construction of the parser); the other counts
and jump targets are `usize`. -/
inductive Instruction where
  | Add (count : Nat)
  | Sub (count : Nat)
  | Left (count : Nat)
  | Right (count : Nat)
  | Input (count : Nat)
  | Output (count : Nat)
  | JumpIfZero (dest : Nat)
  | JumpIfNotZero (dest : Nat)
deriving DecidableEq, Repr

/-- The ways `BFSourceCode::parse_program` (lib.rs lines 250-306) can panic:
`jump_stack.pop().expect(..)` on `]` with an empty stack, the
`assert!(count < 256)` for `+`/`-` runs, and the `panic!("Invalid character")`
catch-all. -/
inductive ParseError where
  | stackUnderflow
  | countOverflow
  | invalidCharacter
deriving DecidableEq, Repr

/-- Embeds the significant-character test of `<BFSourceCode as Iterator>::next`
(lib.rs lines 334-342): only the eight operator characters are significant. -/
def isOp (c : Char) : Bool :=
  c == '+' || c == '-' || c == '<' || c == '>' || c == ',' || c == '.' ||
    c == '[' || c == ']'

/-- Embeds `<BFSourceCode as Iterator>::next` (lib.rs lines 331-343): the
lazy iterator that skips every non-operator character, flattened into a
filtered list (the parser consumes exactly this sequence of characters). -/
def lex (source_code : List Char) : List Char :=
  source_code.filter isOp

/-- Embeds the run-emission match of `parse_program` (lib.rs lines 283-297):
turning a completed run of `count` copies of operator `c` into one
instruction, with the `assert!(count < 256)` for `+`/`-` and the
`panic!("Invalid character")` catch-all as errors. -/
def runInstruction (c : Char) (count : Nat) : Except ParseError Instruction :=
  if c == '+' then
    if count < 256 then .ok (.Add count) else .error .countOverflow
  else if c == '-' then
    if count < 256 then .ok (.Sub count) else .error .countOverflow
  else if c == '<' then .ok (.Left count)
  else if c == '>' then .ok (.Right count)
  else if c == ',' then .ok (.Input count)
  else if c == '.' then .ok (.Output count)
  else .error .invalidCharacter

/-- Embeds the bracket arms of `parse_program`'s match (lib.rs lines 261-273)
together with the start of a fresh run (lines 275-281): processing one
significant character that does not extend a pending run.  Returns the new
pending run (the Rust locals `current_char`/`count`), instruction list and
jump stack.  On `[` the current length is pushed and a `JumpIfZero 0`
placeholder appended; on `]` the matching open index is popped, a
`JumpIfNotZero (o+1)` appended, and the placeholder at `o` patched; note the
Rust code never checks that the stack is empty when input ends. -/
def stepNewChar (c : Char) (instructions : List Instruction)
    (jump_stack : List Nat) :
    Except ParseError (Option (Char × Nat) × List Instruction × List Nat) :=
  if c == '[' then
    .ok (none, instructions ++ [Instruction.JumpIfZero 0],
         instructions.length :: jump_stack)
  else if c == ']' then
    match jump_stack with
    | [] => .error .stackUnderflow
    | jump_if_zero :: stack' =>
      let instructions' := instructions ++ [Instruction.JumpIfNotZero (jump_if_zero + 1)]
      let jump_if_not_zero := instructions'.length
      .ok (none, instructions'.set jump_if_zero (Instruction.JumpIfZero jump_if_not_zero),
           stack')
  else .ok (some (c, 1), instructions, jump_stack)

/-- Embeds the main loop of `parse_program` (lib.rs lines 255-303) as a
state machine over the significant characters.  The Rust loop holds a
current character and, for non-bracket operators, an inner `while` that
counts the run; here that pair of locals is the `pending` argument:
`some (c, count)` means a run of `count` copies of `c` has been consumed
and not yet emitted.  When the input ends the Rust loop breaks and returns
the instructions without inspecting `jump_stack`. -/
def parseChars : List Char → Option (Char × Nat) → List Instruction →
    List Nat → Except ParseError (List Instruction)
  | [], none, instructions, _ => .ok instructions
  | [], some (c, count), instructions, _ =>
    match runInstruction c count with
    | .error e => .error e
    | .ok inst => .ok (instructions ++ [inst])
  | c' :: rest, none, instructions, jump_stack =>
    match stepNewChar c' instructions jump_stack with
    | .error e => .error e
    | .ok (pending', instructions', stack') =>
      parseChars rest pending' instructions' stack'
  | c' :: rest, some (c, count), instructions, jump_stack =>
    if c' == c then parseChars rest (some (c, count + 1)) instructions jump_stack
    else
      match runInstruction c count with
      | .error e => .error e
      | .ok inst =>
        match stepNewChar c' (instructions ++ [inst]) jump_stack with
        | .error e => .error e
        | .ok (pending', instructions', stack') =>
          parseChars rest pending' instructions' stack'

/-- Embeds `BFProgram::parse_program` (lib.rs lines 43-48): lex the source
and run the parsing loop from an empty program and empty jump stack. -/
def parse_program (source_code : List Char) : Except ParseError (List Instruction) :=
  parseChars (lex source_code) none [] []

/-! ## The interpreter (`BFProgram::execute_with_interpreter`, lib.rs 50-111) -/

/-- The ways the interpreter can panic: indexing `memory[mp]` out of bounds,
the `assert!(mp >= count)` on `Left`, and `panic!("Error reading input")`
when a single-byte stdin read does not return exactly one byte. -/
inductive RuntimeError where
  | indexOutOfBounds
  | tapePointerUnderflow
  | inputError
deriving DecidableEq, Repr

/-- The interpreter state: the Rust locals `ip`, `mp` and `memory` of
`execute_with_interpreter`, plus the ambient stdin bytes not yet consumed
and the bytes written to stdout so far. -/
structure InterpState where
  ip : Nat
  mp : Nat
  memory : List Nat
  input : List Nat
  output : List Nat
deriving DecidableEq, Repr

/-- The bytes that `print!("{}", b as char)` (lib.rs line 91) writes to
stdout for a cell byte `b`: `b as char` is the code point U+00`b`, and
`print!` emits its UTF-8 encoding — one byte for values below 128, two
bytes (`0xC2`/`0xC3` then `0x80 + b % 64`) for values 128-255. -/
def printCharBytes (b : Nat) : List Nat :=
  if b < 128 then [b] else [192 + b / 64, 128 + b % 64]

/-- Embeds the `Instruction::Output` loop (lib.rs lines 89-94): `count`
iterations, each reading `memory[mp]` (panicking when out of bounds) and
printing it as a `char`. -/
def doOutput : Nat → InterpState → Except (RuntimeError × InterpState) InterpState
  | 0, s => .ok s
  | count + 1, s =>
    match s.memory.get? s.mp with
    | none => .error (.indexOutOfBounds, s)
    | some v => doOutput count { s with output := s.output ++ printCharBytes v }

/-- Embeds the `Instruction::Input` loop (lib.rs lines 77-88): `count`
single-byte reads from stdin; a read that does not yield exactly one byte
(end of input) panics, and each received byte is stored through
`memory[mp] = buf[0]` (which panics when `mp` is out of bounds). -/
def doInput : Nat → InterpState → Except (RuntimeError × InterpState) InterpState
  | 0, s => .ok s
  | count + 1, s =>
    match s.input with
    | [] => .error (.inputError, s)
    | b :: rest =>
      if s.mp < s.memory.length then
        doInput count { s with input := rest, memory := s.memory.set s.mp b }
      else .error (.indexOutOfBounds, { s with input := rest })

/-- Embeds one iteration of the interpreter's `while` body (lib.rs lines
56-109), dispatching on `self.instructions[ip]`.  `Add`/`Sub` use the
wrapping `u8` arithmetic of `overflowing_add`/`overflowing_sub` (`count` is
a `u8`, so below 256); `Right` adds to `mp` and then calls
`memory.reserve(mp + 1)`, which only grows the vector's capacity — the
length never changes, so no cell is added (lib.rs lines 70-76); `Left`
asserts `mp >= count`. -/
def stepInstr (inst : Instruction) (s : InterpState) :
    Except (RuntimeError × InterpState) InterpState :=
  match inst with
  | .Add count =>
    match s.memory.get? s.mp with
    | none => .error (.indexOutOfBounds, s)
    | some v => .ok { s with memory := s.memory.set s.mp ((v + count) % 256),
                             ip := s.ip + 1 }
  | .Sub count =>
    match s.memory.get? s.mp with
    | none => .error (.indexOutOfBounds, s)
    | some v => .ok { s with memory := s.memory.set s.mp ((v + 256 - count % 256) % 256),
                             ip := s.ip + 1 }
  | .Left count =>
    if count ≤ s.mp then .ok { s with mp := s.mp - count, ip := s.ip + 1 }
    else .error (.tapePointerUnderflow, s)
  | .Right count =>
    .ok { s with mp := s.mp + count, ip := s.ip + 1 }
  | .Input count =>
    match doInput count s with
    | .error e => .error e
    | .ok s' => .ok { s' with ip := s'.ip + 1 }
  | .Output count =>
    match doOutput count s with
    | .error e => .error e
    | .ok s' => .ok { s' with ip := s'.ip + 1 }
  | .JumpIfZero dest =>
    match s.memory.get? s.mp with
    | none => .error (.indexOutOfBounds, s)
    | some v => .ok (if v = 0 then { s with ip := dest } else { s with ip := s.ip + 1 })
  | .JumpIfNotZero dest =>
    match s.memory.get? s.mp with
    | none => .error (.indexOutOfBounds, s)
    | some v => .ok (if v ≠ 0 then { s with ip := dest } else { s with ip := s.ip + 1 })

/-- Outcome of running the interpreter loop: normal termination of the
`while` (`ip` reached the end), a panic, or exhaustion of the step budget
used to make the loop a total function. -/
inductive RunOutcome where
  | halted (s : InterpState)
  | panicked (e : RuntimeError) (s : InterpState)
  | outOfFuel (s : InterpState)
deriving DecidableEq, Repr

/-- Embeds the interpreter's `while ip < self.instructions.len()` loop
(lib.rs lines 55-110), with an explicit step budget. -/
def interpRun (instructions : List Instruction) : Nat → InterpState → RunOutcome
  | 0, s => .outOfFuel s
  | fuel + 1, s =>
    match instructions.get? s.ip with
    | none => .halted s
    | some inst =>
      match stepInstr inst s with
      | .error (e, s') => .panicked e s'
      | .ok s' => interpRun instructions fuel s'

/-- Embeds `BFProgram::execute_with_interpreter` (lib.rs lines 50-111):
`ip = 0`, `mp = 0`, `memory = vec![0; 64]`, then the interpreter loop. -/
def execute_with_interpreter (instructions : List Instruction)
    (stdin : List Nat) (fuel : Nat) : RunOutcome :=
  interpRun instructions fuel
    { ip := 0, mp := 0, memory := List.replicate 64 0, input := stdin, output := [] }

/-- The stdout bytes produced by parsing a source and interpreting it, when
that terminates normally within `fuel` steps (the composition performed by
`main.rs` in `int` mode). -/
def interpreterOutput (source_code : List Char) (stdin : List Nat)
    (fuel : Nat) : Option (List Nat) :=
  match parse_program source_code with
  | .error _ => none
  | .ok program =>
    match execute_with_interpreter program stdin fuel with
    | .halted s => some s.output
    | _ => none

/-! ## The JIT compiler (`BFProgram::jit_compile`, lib.rs 127-246) -/

/-- Embeds `HashMap::insert`: replace the binding when the key is present,
otherwise add it. -/
def hmInsert (m : List (Nat × Nat)) (k v : Nat) : List (Nat × Nat) :=
  match m with
  | [] => [(k, v)]
  | (k', v') :: rest => if k' = k then (k, v) :: rest else (k', v') :: hmInsert rest k v

/-- Embeds `HashMap::get`. -/
def hmGet (m : List (Nat × Nat)) (k : Nat) : Option Nat :=
  match m with
  | [] => none
  | (k', v') :: rest => if k' = k then some v' else hmGet rest k

/-- The four little-endian bytes of `(n as u32).to_le_bytes()` — equally the
low four bytes of a wider integer's `to_le_bytes()`. -/
def u32le (n : Nat) : List Nat :=
  [n % 256, n / 256 % 256, n / 65536 % 256, n / 16777216 % 256]

/-- The machine-code block emitted once per `Output` repetition
(lib.rs lines 158-169): push rdi; mov rax,1; mov rsi,rdi; mov rdi,1;
mov rdx,1; syscall; pop rdi. -/
def outputSyscallCode : List Nat :=
  [0x57,
   0x48, 0xc7, 0xc0, 0x01, 0x00, 0x00, 0x00,
   0x48, 0x89, 0xfe,
   0x48, 0xc7, 0xc7, 0x01, 0x00, 0x00, 0x00,
   0x48, 0xc7, 0xc2, 0x01, 0x00, 0x00, 0x00,
   0x0f, 0x05,
   0x5f]

/-- The machine-code block emitted once per `Input` repetition
(lib.rs lines 177-188): as `outputSyscallCode` with rax,0 and rdi,0. -/
def inputSyscallCode : List Nat :=
  [0x57,
   0x48, 0xc7, 0xc0, 0x00, 0x00, 0x00, 0x00,
   0x48, 0x89, 0xfe,
   0x48, 0xc7, 0xc7, 0x00, 0x00, 0x00, 0x00,
   0x48, 0xc7, 0xc2, 0x01, 0x00, 0x00, 0x00,
   0x0f, 0x05,
   0x5f]

/-- The three-instruction cell test shared by both jump emissions
(lib.rs lines 194-197 and 213-217): xor rax,rax; mov al,[rdi];
test rax,rax. -/
def jumpTestCode : List Nat :=
  [0x48, 0x31, 0xc0,
   0x8a, 0x07,
   0x48, 0x85, 0xc0]

/-- The ways `jit_compile` can panic: `assert!(dst_address.is_some())` on a
`JumpIfNotZero` whose destination is not yet in `jump_addresses`
(lib.rs line 210), the `.unwrap()` of the backpatch lookup (line 234), the
debug overflow of the `usize` subtraction `dest_address - (source_location
+ 4)` (line 235), and out-of-range indexing of `byte_code` while patching
(lines 237-240). -/
inductive JitError where
  | jumpAddressMissing
  | backpatchLookupFailed
  | backpatchOffsetUnderflow
  | backpatchOutOfBounds
deriving DecidableEq, Repr

/-- The state threaded through `jit_compile`'s emission loop: the Rust
locals `byte_code`, `jump_addresses` and `backpatch_addresses`. -/
structure JitState where
  byte_code : List Nat
  jump_addresses : List (Nat × Nat)
  backpatch_addresses : List (Nat × Nat)
deriving DecidableEq, Repr

/-- Embeds one iteration of `jit_compile`'s emission loop (lib.rs lines
133-230): the match computing `instruction_code` for instruction number `i`
and the final `byte_code.append`.  `Add`/`Sub` counts are `u8` (the `% 256`
records the type's range); `Right`/`Left` truncate their count with
`as u32`; `JumpIfNotZero` computes its backward displacement immediately
from `jump_addresses` with a wrapping `usize` subtraction then `as u32`,
while `JumpIfZero` leaves a four-byte placeholder and records it in
`backpatch_addresses`. -/
def jitEmit (i : Nat) (instruction : Instruction) (st : JitState) :
    Except JitError JitState :=
  match instruction with
  | .Add count =>
    .ok { st with byte_code := st.byte_code ++ [0x80, 0x07, count % 256] }
  | .Sub count =>
    .ok { st with byte_code := st.byte_code ++ [0x80, 0x2F, count % 256] }
  | .Right count =>
    .ok { st with byte_code := st.byte_code ++ ([0x48, 0x81, 0xC7] ++ u32le count) }
  | .Left count =>
    .ok { st with byte_code := st.byte_code ++ ([0x48, 0x81, 0xEF] ++ u32le count) }
  | .Output count =>
    .ok { st with byte_code := st.byte_code ++ (List.replicate count outputSyscallCode).flatten }
  | .Input count =>
    .ok { st with byte_code := st.byte_code ++ (List.replicate count inputSyscallCode).flatten }
  | .JumpIfZero dest =>
    let code := jumpTestCode ++ [0x0f, 0x84, 0x00, 0x00, 0x00, 0x00]
    let current_byte_address := st.byte_code.length + code.length
    .ok { byte_code := st.byte_code ++ code,
          jump_addresses := hmInsert st.jump_addresses (i + 1) current_byte_address,
          backpatch_addresses :=
            hmInsert st.backpatch_addresses dest (current_byte_address - 4) }
  | .JumpIfNotZero dest =>
    match hmGet st.jump_addresses dest with
    | none => .error .jumpAddressMissing
    | some dst_address =>
      let current_address := st.byte_code.length + jumpTestCode.length + 6
      let offset := (dst_address % 18446744073709551616 + 18446744073709551616
          - current_address % 18446744073709551616) % 18446744073709551616 % 4294967296
      let code := jumpTestCode ++ ([0x0f, 0x85] ++ u32le offset)
      .ok { byte_code := st.byte_code ++ code,
            jump_addresses := hmInsert st.jump_addresses (i + 1)
              (st.byte_code.length + code.length),
            backpatch_addresses := st.backpatch_addresses }

/-- Embeds the `for (i, instruction) in self.instructions.iter().enumerate()`
loop of `jit_compile` (lib.rs lines 133-230). -/
def jitEmitAll (i : Nat) (instructions : List Instruction) (st : JitState) :
    Except JitError JitState :=
  match instructions with
  | [] => .ok st
  | instruction :: rest =>
    match jitEmit i instruction st with
    | .error e => .error e
    | .ok st' => jitEmitAll (i + 1) rest st'

/-- Writes a list of bytes into `byte_code` starting at `pos`, one
`byte_code[pos + j] = b[j]` at a time (lib.rs lines 237-240). -/
def setBytes (byte_code : List Nat) (pos : Nat) : List Nat → List Nat
  | [] => byte_code
  | b :: bs => setBytes (byte_code.set pos b) (pos + 1) bs

/-- Embeds one iteration of the backpatching loop (lib.rs lines 233-241)
for the entry `(dest_instruction, source_location)`: look the destination
up in `jump_addresses` (`.unwrap()`), compute
`dest_address - (source_location + 4)` (a `usize` subtraction, which panics
on underflow in a debug build), and write its four low little-endian bytes
at `source_location` (indexing panics when out of range). -/
def backpatchOne (jump_addresses : List (Nat × Nat)) (byte_code : List Nat)
    (entry : Nat × Nat) : Except JitError (List Nat) :=
  match hmGet jump_addresses entry.1 with
  | none => .error .backpatchLookupFailed
  | some dest_address =>
    if dest_address < entry.2 + 4 then .error .backpatchOffsetUnderflow
    else if byte_code.length < entry.2 + 4 then .error .backpatchOutOfBounds
    else .ok (setBytes byte_code entry.2 (u32le (dest_address - (entry.2 + 4))))

/-- Embeds the backpatching loop over `backpatch_addresses.iter()`
(lib.rs lines 233-241); the association list fixes one iteration order for
the `HashMap` (the patched regions of distinct entries are disjoint). -/
def backpatchAll (jump_addresses : List (Nat × Nat)) :
    List (Nat × Nat) → List Nat → Except JitError (List Nat)
  | [], byte_code => .ok byte_code
  | entry :: rest, byte_code =>
    match backpatchOne jump_addresses byte_code entry with
    | .error e => .error e
    | .ok byte_code' => backpatchAll jump_addresses rest byte_code'

/-- Embeds `BFProgram::jit_compile` (lib.rs lines 127-246): emit every
instruction from empty maps, backpatch every recorded `JumpIfZero`
placeholder, and append the final `ret` (0xC3). -/
def jit_compile (instructions : List Instruction) : Except JitError (List Nat) :=
  match jitEmitAll 0 instructions { byte_code := [], jump_addresses := [],
                                    backpatch_addresses := [] } with
  | .error e => .error e
  | .ok st =>
    match backpatchAll st.jump_addresses st.backpatch_addresses st.byte_code with
    | .error e => .error e
    | .ok byte_code => .ok (byte_code ++ [0xC3])

/-! ## Native execution of the JIT artifact

`execute_with_jit_compiler` (lib.rs 113-125) copies the compiled bytes into
an anonymous mapping, makes it executable, and calls it with a zeroed
`10 * 1024`-byte tape (`JIT_MEMORY_SIZE`, lib.rs line 6).  The behavior of
the machine code itself is fixed by the x86-64/Linux target, not by code in
`src/`, so it is modelled from the spec below. -/

/-- `const JIT_MEMORY_SIZE` (lib.rs line 6). -/
def JIT_MEMORY_SIZE : Nat := 10 * 1024

/-- Outcome of the native call: return through the final `ret`, a fault
from an out-of-range tape access (undefined behavior, §5/§7 GuestFault), or
exhaustion of the step budget. -/
inductive JitOutcome where
  | halted (s : InterpState)
  | faulted (s : InterpState)
  | outOfFuel (s : InterpState)
deriving DecidableEq, Repr

/-- Modelled from the spec: the effect of the machine code that
`jit_compile` emits for one IR instruction, per §4.3 and §6 — the native
execution itself is not source code in `src/`.  `Add`/`Sub` are wrapping
byte arithmetic on the current cell; `Right`/`Left` move the tape pointer
with no bounds check (a retreat past cell 0 is undefined, modelled as a
fault); `Output` issues one `write(1, cell, 1)` syscall per repetition,
emitting the raw cell byte; `Input` issues `read(0, cell, 1)`, and a read
at end of input returns 0 bytes leaving the cell unchanged (§8 item 6);
the jump blocks test the current cell and transfer to the native code of
the target IR index.  Any cell access outside the tape is a fault. -/
def jitStepInstr (inst : Instruction) (s : InterpState) :
    Except InterpState InterpState :=
  match inst with
  | .Add count =>
    match s.memory.get? s.mp with
    | none => .error s
    | some v => .ok { s with memory := s.memory.set s.mp ((v + count) % 256),
                             ip := s.ip + 1 }
  | .Sub count =>
    match s.memory.get? s.mp with
    | none => .error s
    | some v => .ok { s with memory := s.memory.set s.mp ((v + 256 - count % 256) % 256),
                             ip := s.ip + 1 }
  | .Left count =>
    if count ≤ s.mp then .ok { s with mp := s.mp - count, ip := s.ip + 1 }
    else .error s
  | .Right count =>
    .ok { s with mp := s.mp + count, ip := s.ip + 1 }
  | .Input count =>
    match s.memory.get? s.mp with
    | none => .error s
    | some current =>
      let lastRead := Option.getD (s.input.take count).getLast? current
      .ok { s with memory := s.memory.set s.mp lastRead,
                   input := s.input.drop count, ip := s.ip + 1 }
  | .Output count =>
    match s.memory.get? s.mp with
    | none => .error s
    | some v => .ok { s with output := s.output ++ List.replicate count v,
                             ip := s.ip + 1 }
  | .JumpIfZero dest =>
    match s.memory.get? s.mp with
    | none => .error s
    | some v => .ok (if v = 0 then { s with ip := dest } else { s with ip := s.ip + 1 })
  | .JumpIfNotZero dest =>
    match s.memory.get? s.mp with
    | none => .error s
    | some v => .ok (if v ≠ 0 then { s with ip := dest } else { s with ip := s.ip + 1 })

/-- Modelled from the spec: running the native artifact until its final
`ret` (reached when control falls past the last IR instruction's code,
§4.3 Terminator), with a step budget. -/
def jitRun (instructions : List Instruction) : Nat → InterpState → JitOutcome
  | 0, s => .outOfFuel s
  | fuel + 1, s =>
    match instructions.get? s.ip with
    | none => .halted s
    | some inst =>
      match jitStepInstr inst s with
      | .error s' => .faulted s'
      | .ok s' => jitRun instructions fuel s'

/-- Modelled from the spec: `BFProgram::execute_with_jit_compiler`
(lib.rs lines 113-125) — invoke the compiled artifact on a fresh zeroed
tape of `JIT_MEMORY_SIZE` bytes. -/
def execute_with_jit_compiler (instructions : List Instruction)
    (stdin : List Nat) (fuel : Nat) : JitOutcome :=
  jitRun instructions fuel
    { ip := 0, mp := 0, memory := List.replicate JIT_MEMORY_SIZE 0,
      input := stdin, output := [] }

/-- The stdout bytes produced by parsing a source and running it through
the JIT back-end, when that terminates within `fuel` steps (the composition
performed by `main.rs` in `jit` mode). -/
def jitOutput (source_code : List Char) (stdin : List Nat)
    (fuel : Nat) : Option (List Nat) :=
  match parse_program source_code with
  | .error _ => none
  | .ok program =>
    match execute_with_jit_compiler program stdin fuel with
    | .halted s => some s.output
    | _ => none

/-! ## Invariants on parsed programs -/

instance {ε α : Type} [DecidableEq ε] [DecidableEq α] : DecidableEq (Except ε α) :=
  fun x y =>
    match x, y with
    | .ok a, .ok b =>
      if h : a = b then .isTrue (by rw [h])
      else .isFalse (fun hc => h (Except.ok.inj hc))
    | .error e, .error f =>
      if h : e = f then .isTrue (by rw [h])
      else .isFalse (fun hc => h (Except.error.inj hc))
    | .ok _, .error _ => .isFalse (fun hc => Except.noConfusion hc)
    | .error _, .ok _ => .isFalse (fun hc => Except.noConfusion hc)

/-- One position of the §3 bracket-pair invariant, as the spec states it:
a `JumpIfZero` at index `i` with target `t` must have a `JumpIfNotZero` at
index `t - 1` whose target is `i + 1`, and every jump target must lie in
`[0, len]`. -/
def pairCheck (instrs : List Instruction) (i : Nat) : Bool :=
  match instrs[i]? with
  | some (.JumpIfZero t) =>
    decide (1 ≤ t) && decide (t ≤ instrs.length) &&
      decide (instrs[t - 1]? = some (.JumpIfNotZero (i + 1)))
  | some (.JumpIfNotZero t) => decide (t ≤ instrs.length)
  | _ => true

/-- The §3 bracket-pair invariant (spec §3 items 3 and 4), checked at every
instruction index. -/
def bracketPairInvariant (instrs : List Instruction) : Bool :=
  (List.range instrs.length).all (pairCheck instrs)

/-- Open brackets are matched: every `JumpIfZero` at index `i` with target
`t` — except the still-unmatched placeholders whose indices are on
`stack` — has `1 ≤ t ≤ len` and a `JumpIfNotZero` at `t - 1` targeting
`i + 1`. -/
def MatchedOpens (instrs : List Instruction) (stack : List Nat) : Prop :=
  ∀ i t, instrs[i]? = some (.JumpIfZero t) → i ∉ stack →
    1 ≤ t ∧ t ≤ instrs.length ∧ instrs[t - 1]? = some (.JumpIfNotZero (i + 1))

/-- Close brackets are matched: every `JumpIfNotZero` at index `c` with
target `d` has `1 ≤ d ≤ c` and a `JumpIfZero` at `d - 1` targeting
`c + 1` (the open bracket precedes its close). -/
def ClosedJumps (instrs : List Instruction) : Prop :=
  ∀ c d, instrs[c]? = some (.JumpIfNotZero d) →
    1 ≤ d ∧ d ≤ c ∧ instrs[d - 1]? = some (.JumpIfZero (c + 1))

/-- The two-sided bracket-pairing invariant: both directions of §3's
pairing, i.e. a balanced program. -/
def WellFormedJumps (instrs : List Instruction) : Prop :=
  MatchedOpens instrs [] ∧ ClosedJumps instrs

/-- Executable check equivalent to `WellFormedJumps`. -/
def jumpsCheck (instrs : List Instruction) : Bool :=
  (List.range instrs.length).all fun i =>
    match instrs[i]? with
    | some (.JumpIfZero t) =>
      decide (1 ≤ t) && decide (t ≤ instrs.length) &&
        decide (instrs[t - 1]? = some (.JumpIfNotZero (i + 1)))
    | some (.JumpIfNotZero d) =>
      decide (1 ≤ d) && decide (d ≤ i) &&
        decide (instrs[d - 1]? = some (.JumpIfZero (i + 1)))
    | _ => true

/-- Standard bracket balance of a character sequence, carrying the number
of currently open `[`: the sequence is balanced when every `]` has an open
bracket to close and the depth returns to zero at the end.  Non-bracket
characters are ignored. -/
def balancedFrom : List Char → Nat → Bool
  | [], depth => depth == 0
  | c :: rest, depth =>
    if c == '[' then balancedFrom rest (depth + 1)
    else if c == ']' then
      match depth with
      | 0 => false
      | d + 1 => balancedFrom rest d
    else balancedFrom rest depth

/-- Whether a parse result is the `panic!("Invalid character")` outcome. -/
def isInvalidCharacterError : Except ParseError (List Instruction) → Bool
  | .error .invalidCharacter => true
  | _ => false

/-- The invariant maintained by the parsing loop: matched open brackets
pair correctly, close brackets pair correctly, and the jump stack holds
strictly descending indices of `JumpIfZero 0` placeholders. -/
def ParseInv (instrs : List Instruction) (stack : List Nat) : Prop :=
  MatchedOpens instrs stack ∧ ClosedJumps instrs ∧
    (∀ o ∈ stack, instrs[o]? = some (.JumpIfZero 0)) ∧
    stack.Pairwise (· > ·)

/-- The number of machine-code bytes `jitEmit` produces for one
instruction (3 for `Add`/`Sub`, 7 for `Right`/`Left`, 28 per syscall
repetition, 14 for either jump block). -/
def instrCodeLen : Instruction → Nat
  | .Add _ => 3
  | .Sub _ => 3
  | .Left _ => 7
  | .Right _ => 7
  | .Input count => count * 28
  | .Output count => count * 28
  | .JumpIfZero _ => 14
  | .JumpIfNotZero _ => 14

/-- The native byte offset at which the code for IR index `k` starts: the
total code length of the first `k` instructions. -/
def emittedLen (prog : List Instruction) (k : Nat) : Nat :=
  ((prog.take k).map instrCodeLen).sum

/-- Whether an instruction is one of the two jump variants (exactly the
instructions that insert a successor entry into `jump_addresses`). -/
def isJump : Instruction → Bool
  | .JumpIfZero _ => true
  | .JumpIfNotZero _ => true
  | _ => false

/-- The loop invariant of `jit_compile`'s emission loop after the first
`i` instructions: the emitted code has the predicted length,
`jump_addresses` maps every successor `k` of a jump among the first `i`
instructions to the native offset of IR index `k`, and every recorded
backpatch entry comes from a `JumpIfZero` with its patch site four bytes
before the end of that jump's block. -/
def JitInv (prog : List Instruction) (i : Nat) (st : JitState) : Prop :=
  st.byte_code.length = emittedLen prog i ∧
  (∀ k, 1 ≤ k → k ≤ i →
    (∃ ins, prog[k - 1]? = some ins ∧ isJump ins = true) →
    hmGet st.jump_addresses k = some (emittedLen prog k)) ∧
  (∀ e ∈ st.backpatch_addresses, ∃ a,
    prog[a]? = some (.JumpIfZero e.1) ∧ e.2 + 4 = emittedLen prog (a + 1))

/-! ## Claim theorems: direct evaluations -/

/-! ## Sanity evaluations of the embedded definitions -/

example : parse_program ['+', '+', '+', '.'] =
    .ok [.Add 3, .Output 1] := by rfl

example : parse_program ['[', ']'] =
    .ok [.JumpIfZero 2, .JumpIfNotZero 1] := by rfl

example : parse_program ['a', '+', 'b', '+'] = .ok [.Add 2] := by rfl

example : parse_program [']'] = .error .stackUnderflow := by rfl

example : parse_program ['['] = .ok [.JumpIfZero 0] := by rfl

example : parse_program ['+', '[', '>', '+', '<', '-', ']'] =
    .ok [.Add 1, .JumpIfZero 7, .Right 1, .Add 1, .Left 1, .Sub 1,
         .JumpIfNotZero 2] := by rfl

example : interpreterOutput ['+', '+', '+', '.'] [] 10 = some [3] := by rfl

example : interpreterOutput [',', '+', '.'] [0x41] 10 = some [0x42] := by rfl

example : interpreterOutput ['-', '.'] [] 10 = some [195, 191] := by rfl

example : jit_compile [.Add 2] = .ok [0x80, 0x07, 2, 0xC3] := by rfl

example : jit_compile [.JumpIfZero 2, .JumpIfNotZero 1] =
    .ok (jumpTestCode ++ [0x0f, 0x84, 14, 0, 0, 0] ++
         jumpTestCode ++ [0x0f, 0x85, 0xF2, 0xFF, 0xFF, 0xFF] ++ [0xC3]) := by rfl

example : jit_compile [.JumpIfNotZero 0] = .error .jumpAddressMissing := by rfl

example : jit_compile [.JumpIfZero 0] = .error .backpatchLookupFailed := by rfl

example : jitOutput ['+', '+', '+', '.'] [] 10 = some [3] := by rfl

example : jitOutput ['-', '.'] [] 10 = some [255] := by rfl



/-- Claim C1 — the claim that interpreter stdout equals JIT stdout for
every terminating well-formed program fails on the code: for the source
`-.` with empty stdin both back-ends terminate, the interpreter writes the
two bytes `0xC3 0xBF` (the UTF-8 encoding that `print!("{}", cell as
char)` produces for the cell value 255), while the native code's
`write(1, cell, 1)` syscall emits the single raw byte `0xFF`. -/
theorem interpreter_jit_outputs_differ :
    parse_program ['-', '.'] = .ok [.Sub 1, .Output 1] ∧
    interpreterOutput ['-', '.'] [] 10 = some [195, 191] ∧
    jitOutput ['-', '.'] [] 10 = some [255] ∧
    some [195, 191] ≠ some ([255] : List Nat) :=
  ⟨rfl, rfl, rfl, by decide⟩

/-- Claim C2 — the claim that `Right` extends the tape with zero bytes
fails on the code: `memory.reserve(mp + 1)` (lib.rs line 73) grows only the
vector's capacity, never its length, so after `Right 64` from the source
`>`×64 followed by `+` the access `memory[mp]` at `mp = 64` panics with an
out-of-bounds index instead of reading a fresh zero cell. -/
theorem right_does_not_extend_tape :
    parse_program (List.replicate 64 '>' ++ ['+']) = .ok [.Right 64, .Add 1] ∧
    execute_with_interpreter [.Right 64, .Add 1] [] 10 =
      .panicked .indexOutOfBounds
        { ip := 1, mp := 64, memory := List.replicate 64 0,
          input := [], output := [] } :=
  ⟨rfl, rfl⟩

/-- Claim C3 — the claim that each executed `Output` writes the raw byte
`tape[mp]` with no encoding for every cell value in 0..=255 fails on the
code: `print!("{}", memory[mp] as char)` UTF-8-encodes the code point, so
for the cell value 255 (source `-.`) one `Output 1` writes the two bytes
`0xC3 0xBF` rather than the single byte `0xFF`.  Values below 128 are
written verbatim. -/
theorem output_writes_utf8_for_high_bytes :
    parse_program ['-', '.'] = .ok [.Sub 1, .Output 1] ∧
    execute_with_interpreter [.Sub 1, .Output 1] [] 10 =
      .halted { ip := 2, mp := 0, memory := 255 :: List.replicate 63 0,
                input := [], output := [195, 191] } ∧
    ([195, 191] : List Nat) ≠ [255] :=
  ⟨rfl, rfl, by decide⟩

/-- Claim C4 — the claim that `parse_program` fails on both bracket
errors fails on the code: a `]` with an empty stack does panic, but input
ending with a non-empty stack is not checked (lib.rs line 305 returns the
instructions unconditionally), so the source `[` is accepted and yields
the placeholder program `[JumpIfZero 0]` — on which `jit_compile`'s own
backpatching then panics, showing the unmatched open was never meant to
survive parsing. -/
theorem unmatched_open_bracket_accepted :
    parse_program [']'] = .error .stackUnderflow ∧
    parse_program ['['] = .ok [.JumpIfZero 0] ∧
    jit_compile [.JumpIfZero 0] = .error .backpatchLookupFailed :=
  ⟨rfl, rfl, rfl⟩

/-- Claim C7 — confirmed: executing `Left n` in the interpreter is fatal
(the `assert!(mp >= count)` panic) exactly when `mp < n`; otherwise it
sets `mp` to `mp - n`, leaves every tape cell (and the rest of the state)
unchanged, and advances `ip` by one. -/
theorem left_fatal_iff_pointer_underflow (s : InterpState) (n : Nat) :
    stepInstr (.Left n) s =
      if n ≤ s.mp then
        .ok { ip := s.ip + 1, mp := s.mp - n, memory := s.memory,
              input := s.input, output := s.output }
      else .error (.tapePointerUnderflow, s) :=
  rfl

/-- Claim C8 — the claimed boundary behaviors fail on the code: 255 `+`
followed by `.` parses to `[Add 255, Output 1]` but the interpreter writes
the two UTF-8 bytes `0xC3 0xBF`, not the single byte `0xFF`; and 256 `+`
followed by `.` is rejected by the parser's `assert!(count < 256)` instead
of printing `0x00`. -/
theorem plus_run_boundary_behaviors :
    parse_program (List.replicate 255 '+' ++ ['.']) = .ok [.Add 255, .Output 1] ∧
    interpreterOutput (List.replicate 255 '+' ++ ['.']) [] 10 = some [195, 191] ∧
    ([195, 191] : List Nat) ≠ [255] ∧
    parse_program (List.replicate 256 '+' ++ ['.']) = .error .countOverflow :=
  ⟨rfl, rfl, by decide, rfl⟩

/-- Claim C6 counterexample — the fixed syscall sequence emitted per
`Output` repetition (push rdi; mov rax,1; mov rsi,rdi; mov rdi,1;
mov rdx,1; syscall; pop rdi) is 28 bytes, not 27: already for `Output 1`
the emitted block has 28 bytes. -/
theorem jit_output_block_not_27_bytes :
    jitEmit 0 (.Output 1)
        { byte_code := [], jump_addresses := [], backpatch_addresses := [] } =
      .ok { byte_code := outputSyscallCode, jump_addresses := [],
            backpatch_addresses := [] } ∧
    outputSyscallCode.length = 28 ∧ outputSyscallCode.length ≠ 27 :=
  ⟨by decide, by decide, by decide⟩

/-- Claim C6 (amended) — for every `Output n` instruction, `jit_compile`'s
emission loop appends exactly `n` repetitions of the fixed 28-byte syscall
sequence (push rdi; mov rax,1; mov rsi,rdi; mov rdi,1; mov rdx,1; syscall;
pop rdi), i.e. exactly `28 * n` bytes for that instruction, and touches
neither jump table. -/
theorem jit_output_emits_28_byte_blocks (i n : Nat) (st : JitState) :
    jitEmit i (.Output n) st =
      .ok { st with byte_code :=
              st.byte_code ++ (List.replicate n outputSyscallCode).flatten } ∧
    ((List.replicate n outputSyscallCode).flatten).length = 28 * n := by
  refine ⟨rfl, ?_⟩
  simp [outputSyscallCode, Nat.mul_comm]

/-- Claim C5 counterexample — `parse_program` can return a program that
violates the §3 bracket-pair invariant: the source `[` parses successfully
(the missing end-of-input stack check) to `[JumpIfZero 0]`, whose
placeholder has no matching `JumpIfNotZero`. -/
theorem parse_can_return_invariant_violation :
    parse_program ['['] = .ok [.JumpIfZero 0] ∧
    bracketPairInvariant [.JumpIfZero 0] = false :=
  ⟨rfl, by decide⟩

/-- Claim C9 counterexample — the §3 bracket-pair invariant as stated does
not rule out a stray `JumpIfNotZero`: the program `[JumpIfNotZero 0]`
satisfies it (it has no `JumpIfZero`, and the target 0 is within bounds),
yet `jit_compile` fails the `assert!(dst_address.is_some())` because
`jump_addresses` has no entry for destination 0. -/
theorem spec_invariant_insufficient_for_jit_lookups :
    bracketPairInvariant [.JumpIfNotZero 0] = true ∧
    jit_compile [.JumpIfNotZero 0] = .error .jumpAddressMissing :=
  ⟨by decide, rfl⟩

/-! ## The lexer shields the parser from invalid characters (C10) -/

lemma runInstruction_ne_invalid (c : Char) (count : Nat) (hc : isOp c = true)
    (h1 : (c == '[') = false) (h2 : (c == ']') = false) :
    ∀ e, runInstruction c count = .error e → e ≠ .invalidCharacter := by
  intro e he
  simp only [isOp, Bool.or_eq_true, beq_iff_eq] at hc
  simp only [beq_eq_false_iff_ne, ne_eq] at h1 h2
  unfold runInstruction at he
  rcases hc with ((((((h | h) | h) | h) | h) | h) | h) | h <;> subst h <;>
    simp_all <;> split at he <;> simp_all
  all_goals (intro hcon; subst hcon; simp_all)

lemma stepNewChar_error (c : Char) (instrs : List Instruction)
    (stack : List Nat) (e : ParseError)
    (h : stepNewChar c instrs stack = .error e) : e = .stackUnderflow := by
  unfold stepNewChar at h
  split at h
  · simp at h
  · split at h
    · split at h
      · exact (Except.error.inj h).symm
      · simp at h
    · simp at h

lemma stepNewChar_ok_pending (c : Char) (instrs : List Instruction)
    (stack : List Nat) (p' : Option (Char × Nat)) (i' : List Instruction)
    (s' : List Nat)
    (h : stepNewChar c instrs stack = .ok (p', i', s')) :
    p' = none ∨ (p' = some (c, 1) ∧ (c == '[') = false ∧ (c == ']') = false) := by
  unfold stepNewChar at h
  split at h
  · left; exact (Prod.mk.inj (Except.ok.inj h)).1.symm
  · next hc1 =>
    split at h
    · next hc2 =>
      split at h
      · simp at h
      · left; exact (Prod.mk.inj (Except.ok.inj h)).1.symm
    · next hc2 =>
      right
      refine ⟨(Prod.mk.inj (Except.ok.inj h)).1.symm, ?_, ?_⟩
      · simpa using hc1
      · simpa using hc2

lemma parseChars_no_invalid :
    ∀ (cs : List Char) (pending : Option (Char × Nat))
      (instrs : List Instruction) (stack : List Nat),
      (∀ x ∈ cs, isOp x = true) →
      (∀ c n, pending = some (c, n) →
        isOp c = true ∧ (c == '[') = false ∧ (c == ']') = false) →
      isInvalidCharacterError (parseChars cs pending instrs stack) = false
  | [], none, instrs, stack, _, _ => rfl
  | [], some (c, count), instrs, stack, _, hp => by
    obtain ⟨hc, h1, h2⟩ := hp c count rfl
    simp only [parseChars]
    split
    · rename_i e hr
      have := runInstruction_ne_invalid c count hc h1 h2 e hr
      cases e <;> simp_all [isInvalidCharacterError]
    · rfl
  | c' :: rest, none, instrs, stack, hall, _ => by
    simp only [parseChars]
    split
    · rename_i e hs
      have := stepNewChar_error c' instrs stack e hs
      subst this; rfl
    · rename_i p' i' s' hs
      have hc' : isOp c' = true := hall c' (by simp)
      refine parseChars_no_invalid rest p' i' s'
        (fun x hx => hall x (by simp [hx])) ?_
      intro c n hpn
      rcases stepNewChar_ok_pending c' instrs stack p' i' s' hs with h | ⟨h, hb1, hb2⟩
      · rw [h] at hpn; cases hpn
      · rw [h] at hpn
        obtain ⟨rfl, rfl⟩ := Prod.mk.inj (Option.some.inj hpn)
        exact ⟨hc', hb1, hb2⟩
  | c' :: rest, some (c, count), instrs, stack, hall, hp => by
    obtain ⟨hc, h1, h2⟩ := hp c count rfl
    simp only [parseChars]
    split
    · exact parseChars_no_invalid rest (some (c, count + 1)) instrs stack
        (fun x hx => hall x (by simp [hx])) (fun c0 n0 h0 => by
          obtain ⟨rfl, rfl⟩ := Prod.mk.inj (Option.some.inj h0)
          exact ⟨hc, h1, h2⟩)
    · split
      · rename_i e hr
        have := runInstruction_ne_invalid c count hc h1 h2 e hr
        cases e <;> simp_all [isInvalidCharacterError]
      · rename_i inst hr
        split
        · rename_i e hs
          have := stepNewChar_error c' (instrs ++ [inst]) stack e hs
          subst this; rfl
        · rename_i p' i' s' hs
          have hc' : isOp c' = true := hall c' (by simp)
          refine parseChars_no_invalid rest p' i' s'
            (fun x hx => hall x (by simp [hx])) ?_
          intro c0 n0 h0
          rcases stepNewChar_ok_pending c' (instrs ++ [inst]) stack p' i' s' hs
            with h | ⟨h, hb1, hb2⟩
          · rw [h] at h0; cases h0
          · rw [h] at h0
            obtain ⟨rfl, rfl⟩ := Prod.mk.inj (Option.some.inj h0)
            exact ⟨hc', hb1, hb2⟩

/-! ## Parsing preserves the bracket-pair invariant (C5) -/

lemma getElem?_some_lt {α : Type} {l : List α} {i : Nat} {x : α}
    (h : l[i]? = some x) : i < l.length := by
  rw [List.getElem?_eq_some] at h
  exact h.1

lemma getElem?_append_single {α : Type} {l : List α} {x : α} {i : Nat} {y : α}
    (h : (l ++ [x])[i]? = some y) :
    (i < l.length ∧ l[i]? = some y) ∨ (i = l.length ∧ y = x) := by
  have hlen : i < l.length + 1 := by simpa using getElem?_some_lt h
  rcases Nat.lt_or_ge i l.length with hi | hi
  · exact Or.inl ⟨hi, by rwa [List.getElem?_append_left hi] at h⟩
  · have heq : i = l.length := by omega
    subst heq
    rw [List.getElem?_concat_length] at h
    exact Or.inr ⟨rfl, (Option.some.inj h).symm⟩

lemma ParseInv_append_nonjump (instrs : List Instruction) (stack : List Nat)
    (x : Instruction)
    (hx : ∀ t, x ≠ .JumpIfZero t ∧ x ≠ .JumpIfNotZero t)
    (h : ParseInv instrs stack) : ParseInv (instrs ++ [x]) stack := by
  obtain ⟨hm, hc, hs, hp⟩ := h
  refine ⟨?_, ?_, ?_, hp⟩
  · intro i t hget hmem
    rcases getElem?_append_single hget with ⟨hi, hget'⟩ | ⟨_, hy⟩
    · obtain ⟨h1, h2, h3⟩ := hm i t hget' hmem
      have ht1 : t - 1 < instrs.length := getElem?_some_lt h3
      refine ⟨h1, by simp; omega, ?_⟩
      rw [List.getElem?_append_left ht1]
      exact h3
    · exact absurd hy.symm (hx t).1
  · intro c d hget
    rcases getElem?_append_single hget with ⟨hi, hget'⟩ | ⟨_, hy⟩
    · obtain ⟨h1, h2, h3⟩ := hc c d hget'
      have hd1 : d - 1 < instrs.length := getElem?_some_lt h3
      refine ⟨h1, h2, ?_⟩
      rw [List.getElem?_append_left hd1]
      exact h3
    · exact absurd hy.symm (hx d).2
  · intro o ho
    have hb : o < instrs.length := getElem?_some_lt (hs o ho)
    rw [List.getElem?_append_left hb]
    exact hs o ho

lemma ParseInv_push (instrs : List Instruction) (stack : List Nat)
    (h : ParseInv instrs stack) :
    ParseInv (instrs ++ [.JumpIfZero 0]) (instrs.length :: stack) := by
  obtain ⟨hm, hc, hs, hp⟩ := h
  refine ⟨?_, ?_, ?_, ?_⟩
  · intro i t hget hmem
    rcases getElem?_append_single hget with ⟨hi, hget'⟩ | ⟨hil, _⟩
    · have hmem' : i ∉ stack := fun hin => hmem (List.mem_cons_of_mem _ hin)
      obtain ⟨h1, h2, h3⟩ := hm i t hget' hmem'
      have ht1 : t - 1 < instrs.length := getElem?_some_lt h3
      refine ⟨h1, by simp; omega, ?_⟩
      rw [List.getElem?_append_left ht1]
      exact h3
    · exact absurd (hil ▸ List.mem_cons_self _ _) hmem
  · intro c d hget
    rcases getElem?_append_single hget with ⟨hi, hget'⟩ | ⟨_, hy⟩
    · obtain ⟨h1, h2, h3⟩ := hc c d hget'
      have hd1 : d - 1 < instrs.length := getElem?_some_lt h3
      refine ⟨h1, h2, ?_⟩
      rw [List.getElem?_append_left hd1]
      exact h3
    · cases hy
  · intro o ho
    rcases List.mem_cons.mp ho with rfl | ho'
    · exact List.getElem?_concat_length _ _
    · have hb : o < instrs.length := getElem?_some_lt (hs o ho')
      rw [List.getElem?_append_left hb]
      exact hs o ho'
  · rw [List.pairwise_cons]
    exact ⟨fun o ho => getElem?_some_lt (hs o ho), hp⟩

lemma ParseInv_pop (instrs : List Instruction) (o : Nat) (stack' : List Nat)
    (h : ParseInv instrs (o :: stack')) :
    ParseInv ((instrs ++ [Instruction.JumpIfNotZero (o + 1)]).set o
        (Instruction.JumpIfZero (instrs.length + 1))) stack' := by
  obtain ⟨hm, hc, hs, hp⟩ := h
  have ho : instrs[o]? = some (.JumpIfZero 0) := hs o (List.mem_cons_self _ _)
  have hoL : o < instrs.length := getElem?_some_lt ho
  have hlt : ∀ o' ∈ stack', o' < o := fun o' ho' =>
    (List.pairwise_cons.mp hp).1 o' ho'
  have hlen2 : ((instrs ++ [Instruction.JumpIfNotZero (o + 1)]).set o
      (.JumpIfZero (instrs.length + 1))).length = instrs.length + 1 := by
    simp
  have hget2 : ∀ j, j ≠ o →
      ((instrs ++ [Instruction.JumpIfNotZero (o + 1)]).set o
        (.JumpIfZero (instrs.length + 1)))[j]? =
      (instrs ++ [Instruction.JumpIfNotZero (o + 1)])[j]? := by
    intro j hj
    exact List.getElem?_set_ne (fun he => hj he.symm)
  have hgeto : ((instrs ++ [Instruction.JumpIfNotZero (o + 1)]).set o
      (.JumpIfZero (instrs.length + 1)))[o]? =
      some (.JumpIfZero (instrs.length + 1)) := by
    refine List.getElem?_set_self ?_
    simp
    omega
  refine ⟨?_, ?_, ?_, (List.pairwise_cons.mp hp).2⟩
  · intro i t hget hmem
    by_cases hio : i = o
    · subst hio
      rw [hgeto] at hget
      have ht : t = instrs.length + 1 :=
        (Instruction.JumpIfZero.inj (Option.some.inj hget)).symm
      subst ht
      refine ⟨by omega, by rw [hlen2], ?_⟩
      have : instrs.length + 1 - 1 = instrs.length := by omega
      rw [this, hget2 instrs.length (by omega), List.getElem?_concat_length]
    · rw [hget2 i hio] at hget
      rcases getElem?_append_single hget with ⟨hi, hget'⟩ | ⟨_, hy⟩
      · have hmem' : i ∉ o :: stack' := by
          intro hin
          rcases List.mem_cons.mp hin with h' | h'
          · exact hio h'
          · exact hmem h'
        obtain ⟨h1, h2, h3⟩ := hm i t hget' hmem'
        have ht1 : t - 1 < instrs.length := getElem?_some_lt h3
        have hto : t - 1 ≠ o := by
          intro he
          rw [he, ho] at h3
          cases h3
        refine ⟨h1, by rw [hlen2]; omega, ?_⟩
        rw [hget2 (t - 1) hto, List.getElem?_append_left ht1]
        exact h3
      · cases hy
  · intro c d hget
    by_cases hco : c = o
    · subst hco
      rw [hgeto] at hget
      cases hget
    · rw [hget2 c hco] at hget
      rcases getElem?_append_single hget with ⟨hi, hget'⟩ | ⟨hcl, hy⟩
      · obtain ⟨h1, h2, h3⟩ := hc c d hget'
        have hd1 : d - 1 < instrs.length := getElem?_some_lt h3
        have hdo : d - 1 ≠ o := by
          intro he
          rw [he, ho] at h3
          have := Instruction.JumpIfZero.inj (Option.some.inj h3)
          omega
        refine ⟨h1, h2, ?_⟩
        rw [hget2 (d - 1) hdo, List.getElem?_append_left hd1]
        exact h3
      · have hd : d = o + 1 := Instruction.JumpIfNotZero.inj hy
        subst hd hcl
        refine ⟨by omega, by omega, ?_⟩
        have : o + 1 - 1 = o := by omega
        rw [this, hgeto]
  · intro o' ho'
    have h1 : o' < o := hlt o' ho'
    have h2 : o' < instrs.length := getElem?_some_lt (hs o' (List.mem_cons_of_mem _ ho'))
    rw [hget2 o' (by omega), List.getElem?_append_left h2]
    exact hs o' (List.mem_cons_of_mem _ ho')

lemma runInstruction_not_jump (c : Char) (count : Nat) (inst : Instruction)
    (h : runInstruction c count = .ok inst) :
    ∀ t, inst ≠ .JumpIfZero t ∧ inst ≠ .JumpIfNotZero t := by
  intro t
  unfold runInstruction at h
  repeat' split at h
  all_goals cases h
  all_goals exact ⟨by simp, by simp⟩

lemma stepNewChar_wf (c : Char) (rest : List Char) (instrs : List Instruction)
    (stack : List Nat)
    (hbal : balancedFrom (c :: rest) stack.length = true)
    (hinv : ParseInv instrs stack) :
    ∀ p' i' s', stepNewChar c instrs stack = .ok (p', i', s') →
      ParseInv i' s' ∧ balancedFrom rest s'.length = true := by
  intro p' i' s' h
  unfold stepNewChar at h
  unfold balancedFrom at hbal
  by_cases hc1 : (c == '[') = true
  · rw [if_pos hc1] at h hbal
    obtain ⟨hp', hrest⟩ := Prod.mk.inj (Except.ok.inj h)
    obtain ⟨hi', hs'⟩ := Prod.mk.inj hrest
    subst hi'
    subst hs'
    refine ⟨ParseInv_push instrs stack hinv, ?_⟩
    simpa using hbal
  · rw [if_neg hc1] at h hbal
    by_cases hc2 : (c == ']') = true
    · rw [if_pos hc2] at h hbal
      cases stack with
      | nil => cases h
      | cons o stack' =>
        simp only [] at h
        obtain ⟨hp', hrest⟩ := Prod.mk.inj (Except.ok.inj h)
        obtain ⟨hi', hs'⟩ := Prod.mk.inj hrest
        subst hi'
        subst hs'
        constructor
        · have hpop := ParseInv_pop instrs o stack' hinv
          simpa using hpop
        · simpa using hbal
    · rw [if_neg hc2] at h hbal
      obtain ⟨hp', hrest⟩ := Prod.mk.inj (Except.ok.inj h)
      obtain ⟨hi', hs'⟩ := Prod.mk.inj hrest
      subst hi'
      subst hs'
      exact ⟨hinv, hbal⟩

lemma parseChars_wf :
    ∀ (cs : List Char) (pending : Option (Char × Nat))
      (instrs : List Instruction) (stack : List Nat) (out : List Instruction),
      ParseInv instrs stack →
      (∀ cn n, pending = some (cn, n) →
        (cn == '[') = false ∧ (cn == ']') = false) →
      balancedFrom cs stack.length = true →
      parseChars cs pending instrs stack = .ok out →
      WellFormedJumps out
  | [], none, instrs, stack, out, hinv, _, hbal, hok => by
    have hout : out = instrs := (Except.ok.inj hok).symm
    subst hout
    have hstack : stack = [] := by
      unfold balancedFrom at hbal
      simpa using List.length_eq_zero.mp (by simpa using hbal)
    subst hstack
    exact ⟨hinv.1, hinv.2.1⟩
  | [], some (c, count), instrs, stack, out, hinv, _, hbal, hok => by
    simp only [parseChars] at hok
    split at hok
    · cases hok
    · rename_i inst hr
      have hout : out = instrs ++ [inst] := (Except.ok.inj hok).symm
      subst hout
      have hstack : stack = [] := by
        unfold balancedFrom at hbal
        simpa using List.length_eq_zero.mp (by simpa using hbal)
      subst hstack
      have := ParseInv_append_nonjump instrs []
        inst (runInstruction_not_jump c count inst hr) hinv
      exact ⟨this.1, this.2.1⟩
  | c' :: rest, none, instrs, stack, out, hinv, _, hbal, hok => by
    simp only [parseChars] at hok
    split at hok
    · cases hok
    · rename_i p' i' s' hs
      obtain ⟨hinv', hbal'⟩ :=
        stepNewChar_wf c' rest instrs stack hbal hinv p' i' s' hs
      refine parseChars_wf rest p' i' s' out hinv' ?_ hbal' hok
      intro cn n hpn
      rcases stepNewChar_ok_pending c' instrs stack p' i' s' hs
        with h | ⟨h, hb1, hb2⟩
      · rw [h] at hpn; cases hpn
      · rw [h] at hpn
        obtain ⟨rfl, -⟩ := Prod.mk.inj (Option.some.inj hpn)
        exact ⟨hb1, hb2⟩
  | c' :: rest, some (c, count), instrs, stack, out, hinv, hp, hbal, hok => by
    obtain ⟨h1, h2⟩ := hp c count rfl
    simp only [parseChars] at hok
    split at hok
    · rename_i hcc
      have hcc' : c' = c := by simpa using hcc
      subst hcc'
      have hcb : balancedFrom rest stack.length = true := by
        unfold balancedFrom at hbal
        rw [if_neg (by simpa using fun he => (by simp [he] at h1)),
            if_neg (by simpa using fun he => (by simp [he] at h2))] at hbal
        exact hbal
      exact parseChars_wf rest (some (c', count + 1)) instrs stack out hinv
        (fun cn n hpn => by
          obtain ⟨rfl, -⟩ := Prod.mk.inj (Option.some.inj hpn)
          exact ⟨h1, h2⟩) hcb hok
    · split at hok
      · cases hok
      · rename_i inst hr
        split at hok
        · cases hok
        · rename_i p' i' s' hs
          have hinv1 := ParseInv_append_nonjump instrs stack inst
            (runInstruction_not_jump c count inst hr) hinv
          obtain ⟨hinv', hbal'⟩ :=
            stepNewChar_wf c' rest (instrs ++ [inst]) stack hbal hinv1 p' i' s' hs
          refine parseChars_wf rest p' i' s' out hinv' ?_ hbal' hok
          intro cn n hpn
          rcases stepNewChar_ok_pending c' (instrs ++ [inst]) stack p' i' s' hs
            with h | ⟨h, hb1, hb2⟩
          · rw [h] at hpn; cases hpn
          · rw [h] at hpn
            obtain ⟨rfl, -⟩ := Prod.mk.inj (Option.some.inj hpn)
            exact ⟨hb1, hb2⟩

lemma wellFormedJumps_bracketPairInvariant (instrs : List Instruction)
    (h : WellFormedJumps instrs) : bracketPairInvariant instrs = true := by
  unfold bracketPairInvariant
  rw [List.all_eq_true]
  intro i hi
  rw [List.mem_range] at hi
  unfold pairCheck
  split
  · rename_i t hget
    obtain ⟨h1, h2, h3⟩ := h.1 i t hget (by simp)
    simp [h1, h2, h3]
  · rename_i t hget
    obtain ⟨-, h2, -⟩ := h.2 i t hget
    simp
    omega
  · rfl

lemma jumpsCheck_wellFormedJumps (instrs : List Instruction)
    (h : jumpsCheck instrs = true) : WellFormedJumps instrs := by
  unfold jumpsCheck at h
  rw [List.all_eq_true] at h
  constructor
  · intro i t hget _
    have hi : i < instrs.length := getElem?_some_lt hget
    have hx := h i (List.mem_range.mpr hi)
    rw [hget] at hx
    simp at hx
    exact ⟨hx.1.1, hx.1.2, hx.2⟩
  · intro i t hget
    have hi : i < instrs.length := getElem?_some_lt hget
    have hx := h i (List.mem_range.mpr hi)
    rw [hget] at hx
    simp at hx
    exact ⟨hx.1.1, hx.1.2, hx.2⟩

/-- Claim C5 (amended) — for every program that `parse_program` returns
from a source whose significant characters have balanced brackets, the §3
bracket-pair invariant holds: every `JumpIfZero` at index `i` with target
`t` has a `JumpIfNotZero` at index `t - 1` whose target is `i + 1`, and
every jump target lies in `[0, len]`.  (The balance hypothesis is forced:
the parser accepts sources with unmatched `[`, whose placeholder violates
the invariant.) -/
theorem parse_balanced_bracket_invariant (source_code : List Char)
    (out : List Instruction)
    (hbal : balancedFrom (lex source_code) 0 = true)
    (hok : parse_program source_code = .ok out) :
    bracketPairInvariant out = true := by
  refine wellFormedJumps_bracketPairInvariant out ?_
  refine parseChars_wf (lex source_code) none [] [] out ?_ ?_ hbal hok
  · refine ⟨?_, ?_, ?_, List.Pairwise.nil⟩
    · intro i t hget
      simp at hget
    · intro c d hget
      simp at hget
    · intro o ho
      cases ho
  · intro cn n hpn
    cases hpn

/-- Witness for `parse_balanced_bracket_invariant` at the source `[-]`. -/
theorem parse_balanced_bracket_invariant_witness :
    balancedFrom (lex ['[', '-', ']']) 0 = true ∧
    parse_program ['[', '-', ']'] =
      .ok [.JumpIfZero 3, .Sub 1, .JumpIfNotZero 1] ∧
    bracketPairInvariant [.JumpIfZero 3, .Sub 1, .JumpIfNotZero 1] = true :=
  ⟨by decide, by decide,
   parse_balanced_bracket_invariant ['[', '-', ']']
     [.JumpIfZero 3, .Sub 1, .JumpIfNotZero 1] (by decide) (by decide)⟩

/-! ## jit_compile succeeds on well-formed programs (C9) -/

lemma hmGet_hmInsert_self (m : List (Nat × Nat)) (k v : Nat) :
    hmGet (hmInsert m k v) k = some v := by
  induction m with
  | nil => simp [hmInsert, hmGet]
  | cons kv rest ih =>
    obtain ⟨k', v'⟩ := kv
    by_cases h : k' = k
    · subst h
      simp [hmInsert, hmGet]
    · simp only [hmInsert, hmGet, if_neg h]
      exact ih

lemma hmGet_hmInsert_ne (m : List (Nat × Nat)) (k v k' : Nat) (h : k' ≠ k) :
    hmGet (hmInsert m k v) k' = hmGet m k' := by
  induction m with
  | nil =>
    simp only [hmInsert, hmGet]
    rw [if_neg (fun he => h he.symm)]
  | cons kv rest ih =>
    obtain ⟨k0, v0⟩ := kv
    by_cases h0 : k0 = k
    · subst h0
      simp only [hmInsert, if_pos rfl, hmGet]
      rw [if_neg (fun he => h he.symm), if_neg (fun he => h he.symm)]
    · simp only [hmInsert, if_neg h0, hmGet]
      by_cases h1 : k0 = k'
      · rw [if_pos h1, if_pos h1]
      · rw [if_neg h1, if_neg h1]
        exact ih

lemma mem_hmInsert (m : List (Nat × Nat)) (k v : Nat) (e : Nat × Nat)
    (h : e ∈ hmInsert m k v) : e = (k, v) ∨ e ∈ m := by
  induction m with
  | nil => simpa [hmInsert] using h
  | cons kv rest ih =>
    obtain ⟨k0, v0⟩ := kv
    by_cases h0 : k0 = k
    · subst h0
      simp only [hmInsert, if_pos rfl] at h
      rcases List.mem_cons.mp h with h1 | h1
      · exact Or.inl h1
      · exact Or.inr (List.mem_cons_of_mem _ h1)
    · simp only [hmInsert, if_neg h0] at h
      rcases List.mem_cons.mp h with h1 | h1
      · exact Or.inr (h1 ▸ List.mem_cons_self _ _)
      · rcases ih h1 with h2 | h2
        · exact Or.inl h2
        · exact Or.inr (List.mem_cons_of_mem _ h2)

lemma emittedLen_succ (prog : List Instruction) (k : Nat) (ins : Instruction)
    (h : prog[k]? = some ins) :
    emittedLen prog (k + 1) = emittedLen prog k + instrCodeLen ins := by
  unfold emittedLen
  rw [List.take_succ, h]
  simp

lemma emittedLen_mono (prog : List Instruction) {k k' : Nat} (h : k ≤ k') :
    emittedLen prog k ≤ emittedLen prog k' := by
  induction k', h using Nat.le_induction with
  | base => exact le_refl _
  | succ m hm ih =>
    refine le_trans ih ?_
    unfold emittedLen
    rw [List.take_succ]
    simp

lemma emittedLen_of_ge (prog : List Instruction) {k : Nat}
    (h : prog.length ≤ k) :
    emittedLen prog k = emittedLen prog prog.length := by
  unfold emittedLen
  rw [List.take_of_length_le h, List.take_of_length_le (le_refl _)]

lemma setBytes_length (bs : List Nat) :
    ∀ (code : List Nat) (pos : Nat), (setBytes code pos bs).length = code.length := by
  induction bs with
  | nil => intro code pos; rfl
  | cons b bs ih =>
    intro code pos
    simp only [setBytes]
    rw [ih]
    exact List.length_set ..

lemma flatten_replicate_length (n : Nat) (l : List Nat) :
    ((List.replicate n l).flatten).length = n * l.length := by
  simp [List.length_flatten, Nat.mul_comm]

lemma je_block_length :
    (jumpTestCode ++ [0x0f, 0x84, 0x00, 0x00, 0x00, 0x00] : List Nat).length = 14 :=
  rfl

lemma jne_block_length (x : Nat) :
    (jumpTestCode ++ ([0x0f, 0x85] ++ u32le x) : List Nat).length = 14 :=
  rfl

lemma JitInv_append_code (prog : List Instruction) (i : Nat) (st : JitState)
    (X : Instruction) (hX : isJump X = false) (hi : prog[i]? = some X)
    (code : List Nat) (hlen : code.length = instrCodeLen X)
    (hinv : JitInv prog i st) :
    JitInv prog (i + 1) { st with byte_code := st.byte_code ++ code } := by
  obtain ⟨h1, h2, h3⟩ := hinv
  refine ⟨?_, ?_, h3⟩
  · rw [List.length_append, h1, hlen, emittedLen_succ prog i X hi]
  · intro k hk1 hk2 hkj
    rcases Nat.lt_or_ge k (i + 1) with hlt | hge
    · exact h2 k hk1 (by omega) hkj
    · have hki : k = i + 1 := by omega
      subst hki
      obtain ⟨ins, hins, hj⟩ := hkj
      have hinsX : ins = X := by
        have : prog[i]? = some ins := hins
        rw [hi] at this
        exact (Option.some.inj this).symm
      rw [hinsX, hX] at hj
      cases hj

lemma JitInv_jump_insert (prog : List Instruction) (i : Nat)
    (jumps : List (Nat × Nat)) (hlen : ∀ k, 1 ≤ k → k ≤ i →
      (∃ ins, prog[k - 1]? = some ins ∧ isJump ins = true) →
      hmGet jumps k = some (emittedLen prog k)) :
    ∀ k, 1 ≤ k → k ≤ i + 1 →
      (∃ ins, prog[k - 1]? = some ins ∧ isJump ins = true) →
      hmGet (hmInsert jumps (i + 1) (emittedLen prog (i + 1))) k =
        some (emittedLen prog k) := by
  intro k hk1 hk2 hkj
  rcases Nat.lt_or_ge k (i + 1) with hlt | hge
  · rw [hmGet_hmInsert_ne _ _ _ _ (by omega)]
    exact hlen k hk1 (by omega) hkj
  · have hki : k = i + 1 := by omega
    subst hki
    exact hmGet_hmInsert_self ..

lemma jitEmitAll_ok (prog : List Instruction) (hwf : WellFormedJumps prog) :
    ∀ (rest done : List Instruction) (st : JitState),
      prog = done ++ rest → JitInv prog done.length st →
      ∃ st', jitEmitAll done.length rest st = .ok st' ∧
        JitInv prog prog.length st'
  | [], done, st, heq, hinv => by
    rw [List.append_nil] at heq
    subst heq
    exact ⟨st, rfl, hinv⟩
  | instruction :: rest, done, st, heq, hinv => by
    have hi : prog[done.length]? = some instruction := by
      rw [heq, List.getElem?_append_right (le_refl done.length)]
      simp
    have hstep : ∀ st', jitEmit done.length instruction st = .ok st' →
        JitInv prog (done.length + 1) st' →
        ∃ stf, jitEmitAll done.length (instruction :: rest) st = .ok stf ∧
          JitInv prog prog.length stf := by
      intro st' hok hinv'
      have hrec := jitEmitAll_ok prog hwf rest (done ++ [instruction]) st'
        (by rw [heq, List.append_assoc]; rfl)
        (by rwa [List.length_append, List.length_singleton])
      obtain ⟨stf, hrunf, hinvf⟩ := hrec
      refine ⟨stf, ?_, hinvf⟩
      simp only [jitEmitAll]
      rw [hok]
      rw [List.length_append, List.length_singleton] at hrunf
      exact hrunf
    obtain ⟨h1, h2, h3⟩ := hinv
    have haddr : st.byte_code.length + instrCodeLen instruction =
        emittedLen prog (done.length + 1) := by
      rw [h1, emittedLen_succ prog done.length _ hi]
    cases instruction with
    | Add count =>
      exact hstep _ rfl
        (JitInv_append_code prog done.length st (.Add count) rfl hi _ rfl ⟨h1, h2, h3⟩)
    | Sub count =>
      exact hstep _ rfl
        (JitInv_append_code prog done.length st (.Sub count) rfl hi _ rfl ⟨h1, h2, h3⟩)
    | Left count =>
      exact hstep _ rfl
        (JitInv_append_code prog done.length st (.Left count) rfl hi _ rfl ⟨h1, h2, h3⟩)
    | Right count =>
      exact hstep _ rfl
        (JitInv_append_code prog done.length st (.Right count) rfl hi _ rfl ⟨h1, h2, h3⟩)
    | Output count =>
      exact hstep _ rfl
        (JitInv_append_code prog done.length st (.Output count) rfl hi _
          (by rw [flatten_replicate_length]; rfl) ⟨h1, h2, h3⟩)
    | Input count =>
      exact hstep _ rfl
        (JitInv_append_code prog done.length st (.Input count) rfl hi _
          (by rw [flatten_replicate_length]; rfl) ⟨h1, h2, h3⟩)
    | JumpIfZero dest =>
      have h14 : st.byte_code.length + 14 = emittedLen prog (done.length + 1) := haddr
      refine hstep _ rfl ⟨?_, ?_, ?_⟩
      · rw [List.length_append, je_block_length]
        exact h14
      · rw [je_block_length, h14]
        exact JitInv_jump_insert prog done.length st.jump_addresses h2
      · intro e he
        rcases mem_hmInsert _ _ _ _ he with he' | he'
        · subst he'
          refine ⟨done.length, by simpa using hi, ?_⟩
          show st.byte_code.length +
              (jumpTestCode ++ [0x0f, 0x84, 0x00, 0x00, 0x00, 0x00] : List Nat).length
              - 4 + 4 = emittedLen prog (done.length + 1)
          rw [je_block_length]
          omega
        · exact h3 e he'
    | JumpIfNotZero dest =>
      obtain ⟨hd1, hd2, hdp⟩ := hwf.2 done.length dest hi
      have hget : hmGet st.jump_addresses dest = some (emittedLen prog dest) :=
        h2 dest hd1 hd2 ⟨_, hdp, rfl⟩
      have h14 : st.byte_code.length + 14 = emittedLen prog (done.length + 1) := haddr
      refine hstep _ (by simp only [jitEmit]; rw [hget]) ⟨?_, ?_, ?_⟩
      · rw [List.length_append, jne_block_length]
        exact h14
      · rw [jne_block_length, h14]
        exact JitInv_jump_insert prog done.length st.jump_addresses h2
      · exact h3

lemma backpatchAll_ok (prog : List Instruction) (hwf : WellFormedJumps prog)
    (jumps : List (Nat × Nat))
    (hj : ∀ k, 1 ≤ k → k ≤ prog.length →
      (∃ ins, prog[k - 1]? = some ins ∧ isJump ins = true) →
      hmGet jumps k = some (emittedLen prog k)) :
    ∀ (entries : List (Nat × Nat)) (code : List Nat),
      (∀ e ∈ entries, ∃ a, prog[a]? = some (.JumpIfZero e.1) ∧
        e.2 + 4 = emittedLen prog (a + 1)) →
      code.length = emittedLen prog prog.length →
      ∃ code', backpatchAll jumps entries code = .ok code' ∧
        code'.length = code.length
  | [], code, _, _ => ⟨code, rfl, rfl⟩
  | e :: entries', code, hent, hclen => by
    obtain ⟨a, ha, hsite⟩ := hent e (List.mem_cons_self _ _)
    have haL : a < prog.length := getElem?_some_lt ha
    obtain ⟨ht1, ht2, htp⟩ := hwf.1 a e.1 ha (by simp)
    obtain ⟨-, hd2, -⟩ := hwf.2 (e.1 - 1) (a + 1) htp
    have htL : e.1 ≤ prog.length := by
      have := getElem?_some_lt htp
      omega
    have hget : hmGet jumps e.1 = some (emittedLen prog e.1) :=
      hj e.1 ht1 htL ⟨_, htp, rfl⟩
    have hmono : emittedLen prog (a + 1) ≤ emittedLen prog e.1 :=
      emittedLen_mono prog (by omega)
    have hbd : emittedLen prog (a + 1) ≤ emittedLen prog prog.length :=
      emittedLen_mono prog (by omega)
    have hone : backpatchOne jumps code e =
        .ok (setBytes code e.2 (u32le (emittedLen prog e.1 - (e.2 + 4)))) := by
      unfold backpatchOne
      rw [hget]
      split
      · rename_i hlt
        cases hlt
      · rename_i dest_address heq
        obtain rfl := Option.some.inj heq
        rw [if_neg (by omega), if_neg (by omega)]
    obtain ⟨code'', hrun, hlen''⟩ := backpatchAll_ok prog hwf jumps hj entries'
      (setBytes code e.2 (u32le (emittedLen prog e.1 - (e.2 + 4))))
      (fun e' he' => hent e' (List.mem_cons_of_mem _ he'))
      (by rw [setBytes_length]; exact hclen)
    refine ⟨code'', ?_, ?_⟩
    · simp only [backpatchAll]
      rw [hone]
      exact hrun
    · rw [hlen'', setBytes_length]

/-- Claim C9 (amended) — for every program satisfying the two-sided
bracket-pairing invariant (`WellFormedJumps`: every `JumpIfZero` paired as
in §3, and every `JumpIfNotZero` at index `c` with target `d` having
`1 ≤ d ≤ c` and a `JumpIfZero` at `d - 1` targeting `c + 1`), `jit_compile`
never fails its internal lookups: the `assert!(dst_address.is_some())` on
every `JumpIfNotZero` holds, every backpatch lookup and `usize` offset
subtraction succeeds, every placeholder is patched in bounds, and
compilation returns a byte vector.  (The hypothesis must be two-sided: the
one-sided §3 invariant admits a stray `JumpIfNotZero`, on which the
assertion fails.) -/
theorem jit_compile_succeeds_on_wellformed (instructions : List Instruction)
    (h : WellFormedJumps instructions) :
    ∃ byte_code, jit_compile instructions = .ok byte_code := by
  obtain ⟨st', hrun, hinv⟩ := jitEmitAll_ok instructions h instructions []
    { byte_code := [], jump_addresses := [], backpatch_addresses := [] }
    rfl
    ⟨rfl, fun k hk1 hk2 _ => absurd (hk1.trans hk2) (by decide),
     fun e he => absurd he (List.not_mem_nil e)⟩
  obtain ⟨code', hbp, -⟩ := backpatchAll_ok instructions h st'.jump_addresses
    hinv.2.1 st'.backpatch_addresses st'.byte_code hinv.2.2 hinv.1
  refine ⟨code' ++ [0xC3], ?_⟩
  rw [show ([] : List Instruction).length = 0 from rfl] at hrun
  have hju : jit_compile instructions =
      (match backpatchAll st'.jump_addresses st'.backpatch_addresses
          st'.byte_code with
       | .error e => .error e
       | .ok byte_code => .ok (byte_code ++ [0xC3])) := by
    unfold jit_compile
    rw [hrun]
  rw [hju, hbp]

/-- Witness for `jit_compile_succeeds_on_wellformed` at the parse of the
source `[]`. -/
theorem jit_compile_succeeds_on_wellformed_witness :
    ∃ byte_code,
      jit_compile [.JumpIfZero 2, .JumpIfNotZero 1] = .ok byte_code :=
  jit_compile_succeeds_on_wellformed [.JumpIfZero 2, .JumpIfNotZero 1]
    (jumpsCheck_wellFormedJumps [.JumpIfZero 2, .JumpIfNotZero 1] (by decide))

/-- Claim C10 — confirmed: for every input, `parse_program` never reaches
the `panic!("Invalid character")` branch: the lexer yields only the eight
operator characters, and the non-operator characters it skips never affect
the parsed instructions (parsing the lexed source gives the same result). -/
theorem parse_never_invalid_character (source_code : List Char) :
    isInvalidCharacterError (parse_program source_code) = false ∧
    parse_program source_code = parse_program (lex source_code) := by
  constructor
  · exact parseChars_no_invalid (lex source_code) none [] []
      (fun x hx => List.of_mem_filter hx) (fun c n h => by cases h)
  · unfold parse_program lex
    rw [List.filter_filter]
    simp

end BF
